import Mathlib

/-!
A shallow embedding of the data plane of the l-Othello classifier
(source: src/Othello/data_plane_othello.h, class DataPlaneOthello).

Machine words are modelled as natural numbers with explicit truncation
modulo 2^64; the packed memory is a list of 64-bit words, the aliased
seqlock counter array (field `lock` in the source) a list of 8-bit
counters.  The template parameters L (value width) and CL (control
width) become explicit arguments; the slot width is VCL = L + CL.
The source's uint64 shifts never exceed 63 in any instantiation that
compiles (VCL = 64 makes the constant VCMASK ill-formed), so the
truncating shift used here agrees with the source wherever it is defined.
-/

namespace Othello

/-- Modulus of 64-bit unsigned arithmetic. -/
def W64 : Nat := 2 ^ 64

/-- Word number `i` of the packed memory, `mem[start]` in the source, where
in-bounds access is the caller's precondition; an out-of-range read is 0
here so that the model stays total. -/
def word (mem : List Nat) (i : Nat) : Nat := mem.getD i 0

/-- Common body of the source's memGet (width VCL, bit position index*VCL)
and memValueGet (width L, bit position index*VCL + CL): read a `width`-bit
field that starts at bit `pos` of the packed memory and may straddle two
words.  The source computes
  start = i / 64; offset = i % 64;
  left = offset + width - 64, clamped below at 0;
  mask = complement of (all-ones shifted left by width - left);
  result = (mem[start] >> offset) & mask;
  if (left > 0) result |= (mem[start+1] & lowOnes(left)) << (width - left);
and the clamped int subtraction is the truncated subtraction of Nat. -/
def fieldGet (width : Nat) (mem : List Nat) (pos : Nat) : Nat :=
  let start := pos / 64
  let offset := pos % 64
  let left := offset + width - 64
  let mask := (W64 - 1) ^^^ (((W64 - 1) <<< (width - left)) % W64)
  let result := (word mem start >>> offset) &&& mask
  if 0 < left then
    result ||| ((word mem (start + 1) &&& ((W64 - 1) ^^^ (((W64 - 1) <<< left) % W64)))
      <<< (width - left))
  else
    result

/-- Common body of the source's memSet (width VCL, bit position index*VCL,
masking constant VCMASK) and memValueSet (width L, bit position
index*VCL + CL, masking constant VMASK): write the low `width` bits of
`value` at bit `pos`, splitting across a word boundary when needed.
The source computes
  v = value & lowOnes(width);
  start = i / 64; offset = i % 64; left = offset + width - 64 (as int);
  mem[start] = (mem[start] & ~(lowOnes(width) << offset)) | (v << offset);
  if (left > 0)
    mem[start+1] = (mem[start+1] & (allOnes << left)) | (v >> (width - left));
out-of-range writes are no-ops of List.set (in-bounds is the caller's
precondition in the source). -/
def fieldSet (width : Nat) (mem : List Nat) (pos : Nat) (value : Nat) : List Nat :=
  let v := value &&& (2 ^ width - 1)
  let start := pos / 64
  let offset := pos % 64
  let left := offset + width - 64
  let mask := (W64 - 1) ^^^ (((2 ^ width - 1) <<< offset) % W64)
  let mem1 := mem.set start ((word mem start &&& mask) ||| ((v <<< offset) % W64))
  if 0 < left then
    mem1.set (start + 1)
      ((word mem1 (start + 1) &&& (((W64 - 1) <<< left) % W64)) ||| (v >>> (width - left)))
  else
    mem1

/-- Bit `b` of the packed memory viewed as one long bit string: bit
`b % 64` of word `b / 64`. -/
def memBit (mem : List Nat) (b : Nat) : Bool := (word mem (b / 64)).testBit (b % 64)

/-- Data-plane state: the packed memory, the two array sizes, the aliased
seqlock counters (`lock`, 8192 uint8 cells in the source) and the unused
`versions` array. -/
structure State where
  mem : List Nat
  ma : Nat
  mb : Nat
  lock : List Nat
  versions : List Nat
deriving DecidableEq

/-- One counter increment, `lock[index & 8191]++` in the source, with
uint8 wrap-around. -/
def bumpLock (s : State) (index : Nat) : State :=
  { s with lock := s.lock.set (index % 8192) ((s.lock.getD (index % 8192) 0 + 1) % 256) }

/-- Source memSet: bracket the full-slot write (width VCL at bit
index*VCL) between two increments of the aliased counter; when VCL == 0
return before touching anything. -/
def memSet (L CL : Nat) (s : State) (index value : Nat) : State :=
  if L + CL = 0 then s
  else
    let s1 := bumpLock s index
    let s2 := { s1 with mem := fieldSet (L + CL) s1.mem (index * (L + CL)) value }
    bumpLock s2 index

/-- Source memGet: read the full VCL-bit slot at bit index*VCL. -/
def memGet (L CL : Nat) (s : State) (index : Nat) : Nat :=
  fieldGet (L + CL) s.mem (index * (L + CL))

/-- Source memValueSet: bracket the value-field write (width L at bit
index*VCL + CL) between two counter increments; when L == 0 return before
touching anything. -/
def memValueSet (L CL : Nat) (s : State) (index value : Nat) : State :=
  if L = 0 then s
  else
    let s1 := bumpLock s index
    let s2 := { s1 with mem := fieldSet L s1.mem (index * (L + CL) + CL) value }
    bumpLock s2 index

/-- Source memValueGet: read the L-bit value field at bit index*VCL + CL;
0 when L == 0. -/
def memValueGet (L CL : Nat) (s : State) (index : Nat) : Nat :=
  if L = 0 then 0 else fieldGet L s.mem (index * (L + CL) + CL)

/-- Source fillSingle(valueToFill, nodeToFill) — the value is the FIRST
argument there — delegates to memValueSet(nodeToFill, valueToFill). -/
def fillSingle (L CL : Nat) (s : State) (valueToFill nodeToFill : Nat) : State :=
  memValueSet L CL s nodeToFill valueToFill

/-- Source fixSingle(nodeToFix, x): XOR x into the slot's value field. -/
def fixSingle (L CL : Nat) (s : State) (nodeToFix x : Nat) : State :=
  memValueSet L CL s nodeToFix (x ^^^ memValueGet L CL s nodeToFix)

/-- Source fixHalfTreeByConnectedComponent(indices, xorTemplate): apply
fixSingle with the same template to each listed slot in order. -/
def fixHalfTreeByConnectedComponent (L CL : Nat) (s : State) (indices : List Nat)
    (xorTemplate : Nat) : State :=
  indices.foldl (fun t index => fixSingle L CL t index xorTemplate) s

/-- Source multiply_high_u32: both arguments are uint32 (hence the
truncations) and the product's high 32 bits are returned. -/
def multiply_high_u32 (x y : Nat) : Nat := ((x % 2 ^ 32) * (y % 2 ^ 32)) >>> 32

/-- Source fast_map_to_A, Lemire's multiply-shift reduction into [0, ma). -/
def fast_map_to_A (ma x : Nat) : Nat := multiply_high_u32 x ma

/-- Source fast_map_to_B, the same reduction into [0, mb). -/
def fast_map_to_B (mb x : Nat) : Nat := multiply_high_u32 x mb

/-- Source getIndices on the 64-bit hash value: aInd from the low half
(the uint64-to-uint32 conversion happens inside multiply_high_u32), bInd
from the high half, offset by ma. -/
def getIndices (ma mb : Nat) (hash : Nat) : Nat × Nat :=
  (fast_map_to_A ma hash, fast_map_to_B mb (hash >>> 32) + ma)

/-- Source lookUp(k, v) specialised to a sequential execution (no
concurrent writer): the re-read counters va2, vb2 then necessarily equal
va1, vb1, and the retry loop either returns on its first iteration or,
when it observes an odd counter, observes it odd forever; the diverging
case is `none`.  The source line `*(uint16_t *) aa += 1;` stores through a
pointer whose numeric value is the slot content — it modifies neither the
locals aa, bb that are subsequently written back nor the table's own
arrays, so the write-back stores the unchanged aa and bb. -/
def lookUpHash (L CL : Nat) (s : State) (hash : Nat) : Option (Nat × Bool × State) :=
  let ha := (getIndices s.ma s.mb hash).1
  let hb := (getIndices s.ma s.mb hash).2
  let va1 := s.lock.getD (ha % 8192) 0
  let vb1 := s.lock.getD (hb % 8192) 0
  if va1 % 2 = 1 ∨ vb1 % 2 = 1 then none
  else
    let aa := memGet L CL s ha
    let bb := memGet L CL s hb
    let vc := aa ^^^ bb
    let v := vc >>> CL
    if CL = 0 then some (v, true, s)
    else some (v, true, memSet L CL (memSet L CL s ha aa) hb bb)

/-- Key-typed lookUp(k, v): the key enters only through the hash hab. -/
def lookUp {K : Type} (L CL : Nat) (hab : K → Nat) (s : State) (k : K) :
    Option (Nat × Bool × State) :=
  lookUpHash L CL s (hab k)

/-- Source value-returning lookUp(k): return the value when the boolean
variant succeeds, otherwise throw runtime_error("No matched key! "). -/
def lookUpValue {K : Type} (L CL : Nat) (hab : K → Nat) (s : State) (k : K) :
    Option (Except String (Nat × State)) :=
  match lookUp L CL hab s k with
  | none => none
  | some (v, success, s1) =>
      some (if success then Except.ok (v, s1) else Except.error "No matched key! ")

/-- One data-plane operation, for stating properties of arbitrary
sequences of completed sequential calls. -/
inductive Op where
  | memSetOp (index value : Nat)
  | memValueSetOp (index value : Nat)
  | fillSingleOp (valueToFill nodeToFill : Nat)
  | fixSingleOp (nodeToFix x : Nat)
  | fixHalfTreeOp (indices : List Nat) (x : Nat)
  | lookUpOp (hash : Nat)

/-- Effect of one completed sequential operation on the state (a lookUp
that would retry forever never completes, so it contributes no effect). -/
def applyOp (L CL : Nat) (s : State) : Op → State
  | .memSetOp i v => memSet L CL s i v
  | .memValueSetOp i v => memValueSet L CL s i v
  | .fillSingleOp v n => fillSingle L CL s v n
  | .fixSingleOp n x => fixSingle L CL s n x
  | .fixHalfTreeOp idxs x => fixHalfTreeByConnectedComponent L CL s idxs x
  | .lookUpOp h =>
      match lookUpHash L CL s h with
      | some (_, _, s1) => s1
      | none => s

/-- Run a sequence of completed sequential operations. -/
def runOps (L CL : Nat) (s : State) (ops : List Op) : State :=
  ops.foldl (applyOp L CL) s

/-- All aliased seqlock counters even (the stable, no-write-in-progress
reading of the protocol). -/
def locksEven (s : State) : Prop :=
  ∀ i, s.lock.getD i 0 % 2 = 0

/-- The packed memory covers all ma + mb slots of VCL bits each. -/
def memCovers (L CL : Nat) (s : State) : Prop :=
  (s.ma + s.mb) * (L + CL) ≤ s.mem.length * 64

instance (s : State) : DecidablePred fun i => s.lock.getD i 0 % 2 = 0 := by
  intro i; infer_instance

instance (L CL : Nat) (s : State) : Decidable (memCovers L CL s) := by
  unfold memCovers; infer_instance

/-- Hash of the concrete key k1 of the spec's scenario: with ma = mb = 4
its low 32 bits map to A-slot 1 and its high 32 bits to B-slot 2. -/
def k1hash : Nat := 2 ^ 63 + 2 ^ 30

/-- Table of the concrete scenario (ma = mb = 4, L = 8, CL = 0): the eight
8-bit slots fill exactly one zeroed 64-bit word. -/
def scenarioState : State :=
  { mem := [0], ma := 4, mb := 4, lock := [], versions := [] }

/-- The same table with six zeroed words, so that the literal call
fillSingle(1, 42) — which stores value 1 at slot 42 — stays in bounds. -/
def scenarioStateWide : State :=
  { mem := [0, 0, 0, 0, 0, 0], ma := 4, mb := 4, lock := [], versions := [] }

/-- Table for the control-field observation (L = 8, CL = 2, ma = mb = 1):
slot 0 holds all-ones (control field 3), slot 1 holds 0. -/
def controlState : State :=
  { mem := [1023], ma := 1, mb := 1, lock := [], versions := [] }

/-- Small table with two counter cells of the seqlock array populated, for
the write-protocol witness. -/
def protoState : State :=
  { mem := [0], ma := 1, mb := 1, lock := [0, 0], versions := [] }

/-- Table with five words holding five 63-bit slots, so that slot 4's
value field straddles a word boundary, for the round-trip witness. -/
def straddleState : State :=
  { mem := [0, 0, 0, 0, 0], ma := 3, mb := 2, lock := [], versions := [] }

/-- Table with one word holding eight 4-bit slots, for the component
fix-up witness. -/
def nibbleState : State :=
  { mem := [0x123456789abcdef0], ma := 4, mb := 4, lock := [], versions := [] }

/-!  Bit-level facts about the packed field store.  Everything is phrased
through testBit and the bit stream `memBit`. -/

theorem lowMask_eq {w : Nat} (hw : w ≤ 64) :
    (W64 - 1) ^^^ (((W64 - 1) <<< w) % W64) = 2 ^ w - 1 := by
  apply Nat.eq_of_testBit_eq
  intro i
  simp only [W64, Nat.testBit_xor, Nat.testBit_mod_two_pow, Nat.testBit_shiftLeft,
    Nat.testBit_two_pow_sub_one, ge_iff_le]
  by_cases h1 : i < 64
  · by_cases h2 : i < w
    · have h3 : ¬ w ≤ i := by omega
      simp [h1, h2, h3]
    · have h3 : w ≤ i := by omega
      have h4 : i - w < 64 := by omega
      simp [h1, h2, h3, h4]
  · have h2 : ¬ i < w := by omega
    simp [h1, h2]

theorem highMask_testBit (l i : Nat) :
    (((W64 - 1) <<< l) % W64).testBit i = (decide (i < 64) && decide (l ≤ i)) := by
  simp only [W64, Nat.testBit_mod_two_pow, Nat.testBit_shiftLeft,
    Nat.testBit_two_pow_sub_one, ge_iff_le]
  by_cases h1 : i < 64
  · by_cases h2 : l ≤ i
    · have h3 : i - l < 64 := by omega
      simp [h1, h2, h3]
    · simp [h1, h2]
  · simp [h1]

theorem setMask_testBit (w off i : Nat) :
    ((W64 - 1) ^^^ (((2 ^ w - 1) <<< off) % W64)).testBit i
      = (decide (i < 64) && !(decide (off ≤ i) && decide (i < off + w))) := by
  simp only [W64, Nat.testBit_xor, Nat.testBit_mod_two_pow, Nat.testBit_shiftLeft,
    Nat.testBit_two_pow_sub_one, ge_iff_le]
  by_cases h1 : i < 64
  · by_cases h2 : off ≤ i
    · by_cases h3 : i - off < w
      · have h4 : i < off + w := by omega
        simp [h1, h2, h3, h4]
      · have h4 : ¬ i < off + w := by omega
        simp [h1, h2, h3, h4]
    · simp [h1, h2]
  · simp [h1]

theorem shlMod_testBit (v off i : Nat) :
    ((v <<< off) % W64).testBit i
      = (decide (i < 64) && (decide (off ≤ i) && v.testBit (i - off))) := by
  simp only [W64, Nat.testBit_mod_two_pow, Nat.testBit_shiftLeft, ge_iff_le]

/-- Reading a field reads exactly the bits [pos, pos + width) of the
packed bit stream. -/
theorem fieldGet_testBit (width : Nat) (mem : List Nat) (pos : Nat) (hw : width ≤ 64)
    (t : Nat) :
    (fieldGet width mem pos).testBit t = (decide (t < width) && memBit mem (pos + t)) := by
  by_cases hstr : 64 < pos % 64 + width
  · -- the field straddles two words
    have hleft : 0 < pos % 64 + width - 64 := by omega
    have hwl : width - (pos % 64 + width - 64) = 64 - pos % 64 := by omega
    simp only [fieldGet]
    rw [if_pos hleft, hwl, lowMask_eq (by omega : 64 - pos % 64 ≤ 64),
      lowMask_eq (by omega : pos % 64 + width - 64 ≤ 64)]
    simp only [Nat.testBit_or, Nat.testBit_and, Nat.testBit_shiftRight,
      Nat.testBit_shiftLeft, Nat.testBit_two_pow_sub_one, ge_iff_le,
      memBit, word]
    by_cases ht1 : t < 64 - pos % 64
    · have e1 : (pos + t) / 64 = pos / 64 := by omega
      have e2 : (pos + t) % 64 = pos % 64 + t := by omega
      have e3 : ¬ 64 - pos % 64 ≤ t := by omega
      have e4 : t < width := by omega
      simp [e1, e2, e3, e4, ht1]
    · by_cases ht2 : t < width
      · have e1 : (pos + t) / 64 = pos / 64 + 1 := by omega
        have e2 : (pos + t) % 64 = t - (64 - pos % 64) := by omega
        have e3 : 64 - pos % 64 ≤ t := by omega
        have e4 : t - (64 - pos % 64) < 64 := by omega
        have e5 : t - (64 - pos % 64) < pos % 64 + width - 64 := by omega
        simp [e1, e2, e3, e4, e5, ht1, ht2]
      · have e3 : ¬ t - (64 - pos % 64) < pos % 64 + width - 64 := by omega
        simp [ht1, ht2, e3]
  · -- the field fits in one word
    have hleft : ¬ 0 < pos % 64 + width - 64 := by omega
    have hz : pos % 64 + width - 64 = 0 := by omega
    simp only [fieldGet]
    rw [if_neg hleft, hz, Nat.sub_zero, lowMask_eq hw]
    simp only [Nat.testBit_and, Nat.testBit_shiftRight, Nat.testBit_two_pow_sub_one,
      memBit, word]
    by_cases ht : t < width
    · have e1 : (pos + t) / 64 = pos / 64 := by omega
      have e2 : (pos + t) % 64 = pos % 64 + t := by omega
      simp [e1, e2, ht]
    · simp [ht]

/-- A read field is bounded by its width. -/
theorem fieldGet_lt (width : Nat) (mem : List Nat) (pos : Nat) (hw : width ≤ 64) :
    fieldGet width mem pos < 2 ^ width := by
  apply Nat.lt_pow_two_of_testBit
  intro i hi
  rw [fieldGet_testBit width mem pos hw i]
  simp [show ¬ i < width from by omega]

theorem word_set_self (mem : List Nat) (i a : Nat) (h : i < mem.length) :
    word (mem.set i a) i = a := by
  simp [word, List.getD_eq_getElem?_getD, List.getElem?_set_self h]

theorem word_set_ne (mem : List Nat) (i j a : Nat) (h : i ≠ j) :
    word (mem.set i a) j = word mem j := by
  simp [word, List.getD_eq_getElem?_getD, List.getElem?_set_ne h]

/-- Writing a field changes exactly the bits [pos, pos + width) of the
packed bit stream, setting them to the low `width` bits of the value. -/
theorem fieldSet_memBit (width : Nat) (mem : List Nat) (pos v : Nat)
    (hw : width ≤ 64) (hw0 : 0 < width)
    (h1 : pos / 64 < mem.length)
    (h2 : 64 < pos % 64 + width → pos / 64 + 1 < mem.length) (b : Nat) :
    memBit (fieldSet width mem pos v) b =
      if pos ≤ b ∧ b < pos + width then v.testBit (b - pos) else memBit mem b := by
  have hbm : b % 64 < 64 := by omega
  by_cases hstr : 64 < pos % 64 + width
  · -- straddling write: words pos / 64 and pos / 64 + 1 are both set
    have hleft : 0 < pos % 64 + width - 64 := by omega
    have hwl : width - (pos % 64 + width - 64) = 64 - pos % 64 := by omega
    have hlen2 : pos / 64 + 1 < mem.length := h2 hstr
    simp only [fieldSet, memBit]
    rw [if_pos hleft, hwl,
      word_set_ne mem (pos / 64) (pos / 64 + 1) _ (by omega)]
    by_cases hb1 : b / 64 = pos / 64
    · rw [hb1, word_set_ne _ _ _ _ (by omega),
        word_set_self _ _ _ (by simpa using h1)]
      simp only [Nat.testBit_or, setMask_testBit, shlMod_testBit, Nat.testBit_and,
        Nat.testBit_two_pow_sub_one]
      by_cases hin : pos % 64 ≤ b % 64
      · have hc : pos ≤ b ∧ b < pos + width := by omega
        have e1 : b % 64 < pos % 64 + width := by omega
        have e2 : b - pos = b % 64 - pos % 64 := by omega
        have e3 : b % 64 - pos % 64 < width := by omega
        simp [hbm, hin, e1, e2, e3, hc]
      · have hc : ¬ (pos ≤ b ∧ b < pos + width) := by omega
        simp [hbm, hin, hc]
    · by_cases hb2 : b / 64 = pos / 64 + 1
      · rw [hb2, word_set_self _ _ _ (by simpa using hlen2)]
        simp only [Nat.testBit_or, highMask_testBit, Nat.testBit_and,
          Nat.testBit_shiftRight, Nat.testBit_two_pow_sub_one]
        by_cases hin : b % 64 < pos % 64 + width - 64
        · have hc : pos ≤ b ∧ b < pos + width := by omega
          have e1 : ¬ pos % 64 + width - 64 ≤ b % 64 := by omega
          have e2 : 64 - pos % 64 + b % 64 < width := by omega
          have e3 : b - pos = 64 - pos % 64 + b % 64 := by omega
          simp [hbm, hin, e1, e2, e3, hc]
        · have hc : ¬ (pos ≤ b ∧ b < pos + width) := by omega
          have e1 : pos % 64 + width - 64 ≤ b % 64 := by omega
          have e2 : ¬ 64 - pos % 64 + b % 64 < width := by omega
          simp [hbm, e1, e2, hc]
      · rw [word_set_ne _ _ _ _ (by omega), word_set_ne _ _ _ _ (by omega)]
        have hc : ¬ (pos ≤ b ∧ b < pos + width) := by omega
        simp [hc]
  · -- the write stays inside word pos / 64
    have hleft : ¬ 0 < pos % 64 + width - 64 := by omega
    simp only [fieldSet, memBit]
    rw [if_neg hleft]
    by_cases hb1 : b / 64 = pos / 64
    · rw [hb1, word_set_self _ _ _ (by simpa using h1)]
      simp only [Nat.testBit_or, setMask_testBit, shlMod_testBit, Nat.testBit_and,
        Nat.testBit_two_pow_sub_one]
      by_cases hin : pos % 64 ≤ b % 64 ∧ b % 64 < pos % 64 + width
      · have hc : pos ≤ b ∧ b < pos + width := by omega
        have e2 : b - pos = b % 64 - pos % 64 := by omega
        have e3 : b % 64 - pos % 64 < width := by omega
        simp [hbm, hin.1, hin.2, e2, e3, hc]
      · have hc : ¬ (pos ≤ b ∧ b < pos + width) := by omega
        by_cases hlo : pos % 64 ≤ b % 64
        · have e1 : ¬ b % 64 < pos % 64 + width := by omega
          have e3 : ¬ b % 64 - pos % 64 < width := by omega
          simp [hbm, hlo, e1, e3, hc]
        · simp [hbm, hlo, hc]
    · rw [word_set_ne _ _ _ _ (by omega)]
      have hc : ¬ (pos ≤ b ∧ b < pos + width) := by omega
      simp [hc]

/-- Round trip at field level: reading back the field just written
returns exactly the low `width` bits of the written value. -/
theorem fieldGet_fieldSet_self (width : Nat) (mem : List Nat) (pos v : Nat)
    (hw : width ≤ 64) (hw0 : 0 < width)
    (h1 : pos / 64 < mem.length)
    (h2 : 64 < pos % 64 + width → pos / 64 + 1 < mem.length) :
    fieldGet width (fieldSet width mem pos v) pos = v % 2 ^ width := by
  apply Nat.eq_of_testBit_eq
  intro t
  rw [fieldGet_testBit _ _ _ hw, fieldSet_memBit _ _ _ _ hw hw0 h1 h2,
    Nat.testBit_mod_two_pow]
  by_cases ht : t < width
  · have hc : pos ≤ pos + t ∧ pos + t < pos + width := by omega
    simp [ht, hc]
  · have hc : ¬ (pos ≤ pos + t ∧ pos + t < pos + width) := by omega
    simp [ht, hc]

/-- Frame at field level: a write to a bit range disjoint from the bits a
read touches does not change the outcome of the read. -/
theorem fieldGet_fieldSet_disjoint (w1 w2 : Nat) (mem : List Nat) (pos1 pos2 v : Nat)
    (hw1 : w1 ≤ 64) (hw2 : w2 ≤ 64) (hw0 : 0 < w2)
    (h1 : pos2 / 64 < mem.length)
    (h2 : 64 < pos2 % 64 + w2 → pos2 / 64 + 1 < mem.length)
    (hdisj : pos1 + w1 ≤ pos2 ∨ pos2 + w2 ≤ pos1) :
    fieldGet w1 (fieldSet w2 mem pos2 v) pos1 = fieldGet w1 mem pos1 := by
  apply Nat.eq_of_testBit_eq
  intro t
  rw [fieldGet_testBit _ _ _ hw1, fieldGet_testBit _ _ _ hw1,
    fieldSet_memBit _ _ _ _ hw2 hw0 h1 h2]
  by_cases ht : t < w1
  · have hc : ¬ (pos2 ≤ pos1 + t ∧ pos1 + t < pos2 + w2) := by omega
    simp [hc]
  · simp [ht]

/-- Writing a field never changes the number of words. -/
theorem fieldSet_length (width : Nat) (mem : List Nat) (pos v : Nat) :
    (fieldSet width mem pos v).length = mem.length := by
  simp only [fieldSet]
  split <;> simp

/-!  The simple claims: the lookup path, the hash mapping and the two
concrete scenarios need no bit-level reasoning, only control flow. -/

/-- C1: executed sequentially on a table whose seqlock counters are all
even and whose packed memory covers every slot, lookUp(k, v) succeeds in
one pass: it computes the two indices through getIndices, sets v to the
XOR of the two full VCL-bit slot contents shifted right by CL, and
returns true. -/
theorem C1_lookUp_xor_reconstruction (K : Type) (L CL : Nat) (hab : K → Nat)
    (s : State) (k : K) (heven : locksEven s) (hcov : memCovers L CL s) :
    ∃ s1, lookUp L CL hab s k =
      some ((memGet L CL s (getIndices s.ma s.mb (hab k)).1 ^^^
             memGet L CL s (getIndices s.ma s.mb (hab k)).2) >>> CL, true, s1) := by
  have h1 := heven ((getIndices s.ma s.mb (hab k)).1 % 8192)
  have h2 := heven ((getIndices s.ma s.mb (hab k)).2 % 8192)
  simp only [lookUp, lookUpHash]
  rw [if_neg (by omega)]
  by_cases hCL : CL = 0
  · rw [if_pos hCL]
    exact ⟨s, rfl⟩
  · rw [if_neg hCL]
    exact ⟨_, rfl⟩

/-- C1 witness at the concrete scenario table. -/
theorem C1_witness :
    locksEven scenarioState ∧ memCovers 8 0 scenarioState ∧
    ∃ s1, lookUp 8 0 (fun _ : Unit => k1hash) scenarioState () =
      some ((memGet 8 0 scenarioState
               (getIndices scenarioState.ma scenarioState.mb k1hash).1 ^^^
             memGet 8 0 scenarioState
               (getIndices scenarioState.ma scenarioState.mb k1hash).2) >>> 0,
            true, s1) :=
  ⟨fun i => by simp [scenarioState], by decide,
   C1_lookUp_xor_reconstruction Unit 8 0 (fun _ => k1hash) scenarioState ()
     (fun i => by simp [scenarioState]) (by decide)⟩

/-- C5: sequentially, on a table whose counters are all even, the boolean
lookUp terminates with true — it has no failing path — and hence the
value-returning variant returns normally and never throws its
runtime_error("No matched key! "). -/
theorem C5_lookUp_never_fails (K : Type) (L CL : Nat) (hab : K → Nat) (s : State)
    (k : K) (heven : locksEven s) :
    ∃ v s1, lookUp L CL hab s k = some (v, true, s1) ∧
      lookUpValue L CL hab s k = some (Except.ok (v, s1)) := by
  have h1 := heven ((getIndices s.ma s.mb (hab k)).1 % 8192)
  have h2 := heven ((getIndices s.ma s.mb (hab k)).2 % 8192)
  simp only [lookUpValue, lookUp, lookUpHash]
  rw [if_neg (by omega)]
  by_cases hCL : CL = 0
  · rw [if_pos hCL]
    exact ⟨_, s, rfl, rfl⟩
  · rw [if_neg hCL]
    exact ⟨_, _, rfl, rfl⟩

/-- C5 witness at the concrete scenario table. -/
theorem C5_witness :
    locksEven scenarioState ∧
    ∃ v s1, lookUp 8 0 (fun _ : Unit => k1hash) scenarioState () = some (v, true, s1) ∧
      lookUpValue 8 0 (fun _ : Unit => k1hash) scenarioState () =
        some (Except.ok (v, s1)) :=
  ⟨fun i => by simp [scenarioState],
   C5_lookUp_never_fails Unit 8 0 (fun _ => k1hash) scenarioState ()
     (fun i => by simp [scenarioState])⟩

/-- C9: when CL = 0, a completed lookUp is purely read-only: the state it
returns — packed memory, counters, and every other field — is exactly the
state it started from. -/
theorem C9_lookUp_CL0_no_write (K : Type) (L : Nat) (hab : K → Nat) (s : State)
    (k : K) (v : Nat) (b : Bool) (s1 : State)
    (h : lookUp L 0 hab s k = some (v, b, s1)) : s1 = s := by
  simp only [lookUp, lookUpHash] at h
  by_cases hc : s.lock.getD ((getIndices s.ma s.mb (hab k)).1 % 8192) 0 % 2 = 1 ∨
      s.lock.getD ((getIndices s.ma s.mb (hab k)).2 % 8192) 0 % 2 = 1
  · rw [if_pos hc] at h
    cases h
  · rw [if_neg hc] at h
    simp only [if_true, if_pos trivial, Option.some.injEq, Prod.mk.injEq] at h
    exact h.2.2.symm

/-- C9 witness: the concrete lookup of k1 returns the very state it was
given. -/
theorem C9_witness :
    lookUp 8 0 (fun _ : Unit => k1hash) scenarioState () =
      some (0, true, scenarioState) ∧ scenarioState = scenarioState :=
  ⟨by decide,
   C9_lookUp_CL0_no_write Unit 8 (fun _ => k1hash) scenarioState () 0 true
     scenarioState (by decide)⟩

/-- C7: multiply_high_u32 realises Lemire range reduction — on 32-bit
inputs it returns (x * count) >> 32, which lies below count whenever
count ≥ 1 — and getIndices therefore sends every key to an A-index in
[0, ma) drawn from the low 32 hash bits and a B-index in [ma, ma + mb)
drawn from the high 32 hash bits plus ma. -/
theorem C7_mapping_ranges :
    (∀ x count : Nat, x < 2 ^ 32 → 1 ≤ count → count < 2 ^ 32 →
      multiply_high_u32 x count = (x * count) >>> 32 ∧
      multiply_high_u32 x count < count) ∧
    (∀ (K : Type) (hab : K → Nat) (k : K) (ma mb : Nat), hab k < 2 ^ 64 →
      1 ≤ ma → ma < 2 ^ 32 → 1 ≤ mb → mb < 2 ^ 32 →
      (getIndices ma mb (hab k)).1 = (hab k % 2 ^ 32 * ma) >>> 32 ∧
      (getIndices ma mb (hab k)).1 < ma ∧
      (getIndices ma mb (hab k)).2 = (hab k >>> 32 * mb) >>> 32 + ma ∧
      ma ≤ (getIndices ma mb (hab k)).2 ∧
      (getIndices ma mb (hab k)).2 < ma + mb) := by
  have key : ∀ x count : Nat, 1 ≤ count → count < 2 ^ 32 →
      multiply_high_u32 x count < count := by
    intro x count hc1 hc2
    have hx : x % 2 ^ 32 < 2 ^ 32 := Nat.mod_lt _ (by norm_num)
    have hcm : count % 2 ^ 32 = count := Nat.mod_eq_of_lt hc2
    simp only [multiply_high_u32, Nat.shiftRight_eq_div_pow, hcm]
    rw [Nat.div_lt_iff_lt_mul (by norm_num : 0 < 2 ^ 32)]
    calc x % 2 ^ 32 * count < 2 ^ 32 * count :=
          (Nat.mul_lt_mul_right (by omega : 0 < count)).mpr hx
      _ = count * 2 ^ 32 := Nat.mul_comm _ _
  constructor
  · intro x count hx hc1 hc2
    refine ⟨?_, key x count hc1 hc2⟩
    simp only [multiply_high_u32, Nat.mod_eq_of_lt hx, Nat.mod_eq_of_lt hc2]
  · intro K hab k ma mb hh hma1 hma2 hmb1 hmb2
    have hhi : hab k >>> 32 < 2 ^ 32 := by
      simp only [Nat.shiftRight_eq_div_pow]
      omega
    have h1 : (getIndices ma mb (hab k)).1 = multiply_high_u32 (hab k) ma := rfl
    have h2 : (getIndices ma mb (hab k)).2
        = multiply_high_u32 (hab k >>> 32) mb + ma := rfl
    refine ⟨?_, ?_, ?_, ?_, ?_⟩
    · rw [h1]
      simp only [multiply_high_u32, Nat.mod_eq_of_lt hma2]
    · rw [h1]; exact key _ _ hma1 hma2
    · rw [h2]
      simp only [multiply_high_u32, Nat.mod_eq_of_lt hhi, Nat.mod_eq_of_lt hmb2]
    · rw [h2]; omega
    · rw [h2]
      have := key (hab k >>> 32) mb hmb1 hmb2
      omega

/-- C7 witness at the concrete k1 hash and table sizes of the scenario. -/
theorem C7_witness :
    (multiply_high_u32 (2 ^ 30) 4 = (2 ^ 30 * 4) >>> 32 ∧
     multiply_high_u32 (2 ^ 30) 4 < 4) ∧
    ((getIndices 4 4 ((fun _ : Unit => k1hash) ())).1
        = ((fun _ : Unit => k1hash) () % 2 ^ 32 * 4) >>> 32 ∧
     (getIndices 4 4 ((fun _ : Unit => k1hash) ())).1 < 4 ∧
     (getIndices 4 4 ((fun _ : Unit => k1hash) ())).2
        = ((fun _ : Unit => k1hash) () >>> 32 * 4) >>> 32 + 4 ∧
     4 ≤ (getIndices 4 4 ((fun _ : Unit => k1hash) ())).2 ∧
     (getIndices 4 4 ((fun _ : Unit => k1hash) ())).2 < 4 + 4) :=
  ⟨C7_mapping_ranges.1 (2 ^ 30) 4 (by norm_num) (by norm_num) (by norm_num),
   C7_mapping_ranges.2 Unit (fun _ => k1hash) () 4 4 (by decide) (by norm_num)
     (by norm_num) (by norm_num) (by norm_num)⟩

/-- C3 (counterexample): the claim reads fillSingle as (slot, value), but
the source signature is fillSingle(valueToFill, nodeToFill) — the value
comes first.  The literal calls fillSingle(1, 42) and fillSingle(6, 0)
therefore store value 1 at slot 42 and value 6 at slot 0 (both in bounds
of the six-word table), leave slots 1 and 6 zero, and the subsequent
lookup of k1 — whose getIndices result is indeed (1, 6) — returns 0, not
the claimed 42. -/
theorem C3_counterexample :
    getIndices 4 4 k1hash = (1, 6) ∧
    Option.map Prod.fst
      (lookUp 8 0 (fun _ : Unit => k1hash)
        (fillSingle 8 0 (fillSingle 8 0 scenarioStateWide 1 42) 6 0) ()) = some 0 ∧
    (0 : Nat) ≠ 42 := by
  decide

/-- C3 (amended): with the arguments in the source's order — the value
first — the scenario behaves as intended: fillSingle(42, 1) and
fillSingle(0, 6) make lookUp(k1) return 42, and the further
fixSingle(6, 42 XOR 7) makes it return 7. -/
theorem C3_amended_scenario :
    getIndices 4 4 k1hash = (1, 6) ∧
    Option.map Prod.fst
      (lookUp 8 0 (fun _ : Unit => k1hash)
        (fillSingle 8 0 (fillSingle 8 0 scenarioState 42 1) 0 6) ()) = some 42 ∧
    Option.map Prod.fst
      (lookUp 8 0 (fun _ : Unit => k1hash)
        (fixSingle 8 0 (fillSingle 8 0 (fillSingle 8 0 scenarioState 42 1) 0 6)
          6 (42 ^^^ 7)) ()) = some 7 := by
  decide

/-- C4 (code evaluated at the failing input): with L = 8, CL = 2, ma =
mb = 1, slot 0 holding all-ones (control field 3) and slot 1 zero
(control field 0), the key hashing to 0 touches slots 0 and 1; its
successful sequential lookup leaves both control sub-fields at 3 and 0
instead of incrementing them to 0 mod 4 and 1.  The source's intended
increment is executed as a store through the pointer `(uint16_t *) aa`,
so the locals written back by memSet are unchanged. -/
theorem C4_control_field_not_incremented :
    (memGet 8 2 controlState 0 % 4, memGet 8 2 controlState 1 % 4) = (3, 0) ∧
    Option.map (fun r => (memGet 8 2 r.2.2 0 % 4, memGet 8 2 r.2.2 1 % 4))
      (lookUp 8 2 (fun _ : Unit => 0) controlState ()) = some (3, 0) := by
  decide

/-- Bounds of a value field inside a covering memory: its first word
exists, and when it straddles, so does the second. -/
theorem slotPos_bounds (L CL : Nat) (s : State) (index : Nat)
    (hVCL : L + CL ≤ 64) (hL : 0 < L) (hidx : index < s.ma + s.mb)
    (hcov : memCovers L CL s) :
    (index * (L + CL) + CL) / 64 < s.mem.length ∧
    (64 < (index * (L + CL) + CL) % 64 + L →
      (index * (L + CL) + CL) / 64 + 1 < s.mem.length) := by
  have h1 : index * (L + CL) + CL + L = (index + 1) * (L + CL) := by ring
  have h2 : (index + 1) * (L + CL) ≤ (s.ma + s.mb) * (L + CL) :=
    Nat.mul_le_mul_right _ (by omega)
  have h3 : (s.ma + s.mb) * (L + CL) ≤ s.mem.length * 64 := hcov
  constructor
  · omega
  · intro h
    omega

/-- C2: writing a value with memValueSet and reading the same slot back
with memValueGet returns the value unchanged, for every slot of a covered
table and every value below 2^L, word-straddling slots included. -/
theorem C2_memValue_roundtrip (L CL : Nat) (s : State) (index v : Nat)
    (hVCL : L + CL ≤ 64) (hidx : index < s.ma + s.mb) (hcov : memCovers L CL s)
    (hv : v < 2 ^ L) :
    memValueGet L CL (memValueSet L CL s index v) index = v := by
  by_cases hL : L = 0
  · subst hL
    have hv0 : v = 0 := by omega
    subst hv0
    simp [memValueGet]
  · have hL0 : 0 < L := Nat.pos_of_ne_zero hL
    obtain ⟨hstart, hstrad⟩ := slotPos_bounds L CL s index hVCL hL0 hidx hcov
    simp only [memValueGet, memValueSet, if_neg hL]
    show fieldGet L (fieldSet L s.mem (index * (L + CL) + CL) v)
        (index * (L + CL) + CL) = v
    rw [fieldGet_fieldSet_self L s.mem _ v (by omega) hL0 hstart hstrad]
    exact Nat.mod_eq_of_lt hv

/-- C2 witness: slot 4 of the 63-bit-slot table — its value field spans
bits [255, 315), straddling words 3 and 4 — returns the 60-bit value
written into it. -/
theorem C2_witness :
    60 + 3 ≤ 64 ∧ 4 < straddleState.ma + straddleState.mb ∧
    memCovers 60 3 straddleState ∧ 2 ^ 59 + 7 < 2 ^ 60 ∧
    memValueGet 60 3 (memValueSet 60 3 straddleState 4 (2 ^ 59 + 7)) 4
      = 2 ^ 59 + 7 :=
  ⟨by norm_num, by decide, by decide, by norm_num,
   C2_memValue_roundtrip 60 3 straddleState 4 (2 ^ 59 + 7) (by norm_num)
     (by decide) (by decide) (by norm_num)⟩

/-!  The seqlock counter discipline. -/

theorem bumpLock_getD_self (s : State) (index : Nat)
    (h : index % 8192 < s.lock.length) :
    (bumpLock s index).lock.getD (index % 8192) 0
      = (s.lock.getD (index % 8192) 0 + 1) % 256 := by
  simp [bumpLock, List.getD_eq_getElem?_getD, List.getElem?_set_self h]

theorem bumpLock_getD_ne (s : State) (index j : Nat) (h : j ≠ index % 8192) :
    (bumpLock s index).lock.getD j 0 = s.lock.getD j 0 := by
  simp [bumpLock, List.getD_eq_getElem?_getD, List.getElem?_set_ne (Ne.symm h)]

theorem bumpLock_lock_length (s : State) (index : Nat) :
    (bumpLock s index).lock.length = s.lock.length := by
  simp [bumpLock]

theorem bumpLock_oob (s : State) (index : Nat) (h : s.lock.length ≤ index % 8192) :
    bumpLock s index = s := by
  simp [bumpLock, List.set_eq_of_length_le h]

/-- The lock array of memSet is that of two successive counter bumps. -/
theorem memSet_lock (L CL : Nat) (s : State) (index value : Nat) (h : ¬ L + CL = 0) :
    (memSet L CL s index value).lock = (bumpLock (bumpLock s index) index).lock := by
  simp only [memSet, if_neg h]
  rfl

/-- The lock array of memValueSet is that of two successive counter
bumps. -/
theorem memValueSet_lock (L CL : Nat) (s : State) (index value : Nat) (h : ¬ L = 0) :
    (memValueSet L CL s index value).lock
      = (bumpLock (bumpLock s index) index).lock := by
  simp only [memValueSet, if_neg h]
  rfl

/-- Two bumps of the same cell add exactly 2 (mod 256) there and nothing
anywhere else. -/
theorem double_bump_getD (s : State) (index : Nat)
    (hlen : index % 8192 < s.lock.length) :
    (bumpLock (bumpLock s index) index).lock.getD (index % 8192) 0
      = (s.lock.getD (index % 8192) 0 + 2) % 256 ∧
    ∀ j, j ≠ index % 8192 →
      (bumpLock (bumpLock s index) index).lock.getD j 0 = s.lock.getD j 0 := by
  constructor
  · rw [bumpLock_getD_self _ _ (by rwa [bumpLock_lock_length]),
      bumpLock_getD_self _ _ hlen]
    omega
  · intro j hj
    rw [bumpLock_getD_ne _ _ _ hj, bumpLock_getD_ne _ _ _ hj]

/-- Two bumps of the same cell preserve evenness of every counter. -/
theorem locksEven_double_bump (s : State) (index : Nat) (h : locksEven s) :
    locksEven (bumpLock (bumpLock s index) index) := by
  intro j
  by_cases hin : index % 8192 < s.lock.length
  · by_cases hj : j = index % 8192
    · subst hj
      rw [(double_bump_getD s index hin).1]
      have := h (index % 8192)
      omega
    · rw [(double_bump_getD s index hin).2 j hj]
      exact h j
  · rw [bumpLock_oob s index (by omega), bumpLock_oob s index (by omega)]
    exact h j

theorem locksEven_memSet (L CL : Nat) (s : State) (index value : Nat)
    (h : locksEven s) : locksEven (memSet L CL s index value) := by
  by_cases h0 : L + CL = 0
  · simp only [memSet, if_pos h0]
    exact h
  · intro j
    rw [show (memSet L CL s index value).lock.getD j 0
        = (bumpLock (bumpLock s index) index).lock.getD j 0 from by
      rw [memSet_lock L CL s index value h0]]
    exact locksEven_double_bump s index h j

theorem locksEven_memValueSet (L CL : Nat) (s : State) (index value : Nat)
    (h : locksEven s) : locksEven (memValueSet L CL s index value) := by
  by_cases h0 : L = 0
  · simp only [memValueSet, if_pos h0]
    exact h
  · intro j
    rw [show (memValueSet L CL s index value).lock.getD j 0
        = (bumpLock (bumpLock s index) index).lock.getD j 0 from by
      rw [memValueSet_lock L CL s index value h0]]
    exact locksEven_double_bump s index h j

theorem locksEven_fixSingle (L CL : Nat) (s : State) (n x : Nat)
    (h : locksEven s) : locksEven (fixSingle L CL s n x) :=
  locksEven_memValueSet L CL s n _ h

theorem locksEven_fixHalfTree (L CL : Nat) (s : State) (idxs : List Nat) (x : Nat)
    (h : locksEven s) :
    locksEven (fixHalfTreeByConnectedComponent L CL s idxs x) := by
  induction idxs generalizing s with
  | nil => exact h
  | cons i rest ih =>
      simp only [fixHalfTreeByConnectedComponent, List.foldl_cons]
      exact ih (fixSingle L CL s i x) (locksEven_fixSingle L CL s i x h)

theorem locksEven_applyOp (L CL : Nat) (s : State) (op : Op) (h : locksEven s) :
    locksEven (applyOp L CL s op) := by
  cases op with
  | memSetOp i v => exact locksEven_memSet L CL s i v h
  | memValueSetOp i v => exact locksEven_memValueSet L CL s i v h
  | fillSingleOp v n => exact locksEven_memValueSet L CL s n v h
  | fixSingleOp n x => exact locksEven_fixSingle L CL s n x h
  | fixHalfTreeOp idxs x => exact locksEven_fixHalfTree L CL s idxs x h
  | lookUpOp hsh =>
      simp only [applyOp]
      cases hl : lookUpHash L CL s hsh with
      | none => exact h
      | some r =>
          obtain ⟨v, b, s1⟩ := r
          simp only []
          simp only [lookUpHash] at hl
          by_cases hc : s.lock.getD ((getIndices s.ma s.mb hsh).1 % 8192) 0 % 2 = 1 ∨
              s.lock.getD ((getIndices s.ma s.mb hsh).2 % 8192) 0 % 2 = 1
          · rw [if_pos hc] at hl
            cases hl
          · rw [if_neg hc] at hl
            by_cases hCL : CL = 0
            · rw [if_pos hCL] at hl
              simp only [Option.some.injEq, Prod.mk.injEq] at hl
              rw [← hl.2.2]
              exact h
            · rw [if_neg hCL] at hl
              simp only [Option.some.injEq, Prod.mk.injEq] at hl
              rw [← hl.2.2]
              exact locksEven_memSet _ _ _ _ _ (locksEven_memSet _ _ _ _ _ h)

theorem locksEven_runOps (L CL : Nat) (s : State) (ops : List Op)
    (h : locksEven s) : locksEven (runOps L CL s ops) := by
  induction ops generalizing s with
  | nil => exact h
  | cons op rest ih =>
      exact ih (applyOp L CL s op) (locksEven_applyOp L CL s op h)

/-- C8: every effective slot mutation bumps the aliased version counter of
its slot by exactly two — once before and once after the memory write —
and touches no other counter; consequently, starting from the all-zero
counter array, after any sequence of completed sequential operations
every counter is even. -/
theorem C8_seqlock_discipline :
    (∀ (L CL : Nat) (s : State) (index value : Nat), 0 < L + CL →
      index % 8192 < s.lock.length →
      (memSet L CL s index value).lock.getD (index % 8192) 0
        = (s.lock.getD (index % 8192) 0 + 2) % 256 ∧
      ∀ j, j ≠ index % 8192 →
        (memSet L CL s index value).lock.getD j 0 = s.lock.getD j 0) ∧
    (∀ (L CL : Nat) (s : State) (index value : Nat), 0 < L →
      index % 8192 < s.lock.length →
      (memValueSet L CL s index value).lock.getD (index % 8192) 0
        = (s.lock.getD (index % 8192) 0 + 2) % 256 ∧
      ∀ j, j ≠ index % 8192 →
        (memValueSet L CL s index value).lock.getD j 0 = s.lock.getD j 0) ∧
    (∀ (L CL : Nat) (s : State) (ops : List Op),
      (∀ i, s.lock.getD i 0 = 0) → locksEven (runOps L CL s ops)) := by
  refine ⟨?_, ?_, ?_⟩
  · intro L CL s index value h0 hlen
    have hl := memSet_lock L CL s index value (by omega)
    rw [show (memSet L CL s index value).lock.getD (index % 8192) 0
        = (bumpLock (bumpLock s index) index).lock.getD (index % 8192) 0 from by
      rw [hl]]
    refine ⟨(double_bump_getD s index hlen).1, ?_⟩
    intro j hj
    rw [show (memSet L CL s index value).lock.getD j 0
        = (bumpLock (bumpLock s index) index).lock.getD j 0 from by rw [hl]]
    exact (double_bump_getD s index hlen).2 j hj
  · intro L CL s index value h0 hlen
    have hl := memValueSet_lock L CL s index value (by omega)
    rw [show (memValueSet L CL s index value).lock.getD (index % 8192) 0
        = (bumpLock (bumpLock s index) index).lock.getD (index % 8192) 0 from by
      rw [hl]]
    refine ⟨(double_bump_getD s index hlen).1, ?_⟩
    intro j hj
    rw [show (memValueSet L CL s index value).lock.getD j 0
        = (bumpLock (bumpLock s index) index).lock.getD j 0 from by rw [hl]]
    exact (double_bump_getD s index hlen).2 j hj
  · intro L CL s ops hzero
    exact locksEven_runOps L CL s ops (fun i => by rw [hzero i])

/-- C8 witness at a concrete table, index and operation sequence. -/
theorem C8_witness :
    ((memSet 8 0 protoState 0 5).lock.getD (0 % 8192) 0
        = (protoState.lock.getD (0 % 8192) 0 + 2) % 256 ∧
      ∀ j, j ≠ 0 % 8192 →
        (memSet 8 0 protoState 0 5).lock.getD j 0 = protoState.lock.getD j 0) ∧
    ((memValueSet 8 0 protoState 1 5).lock.getD (1 % 8192) 0
        = (protoState.lock.getD (1 % 8192) 0 + 2) % 256 ∧
      ∀ j, j ≠ 1 % 8192 →
        (memValueSet 8 0 protoState 1 5).lock.getD j 0 = protoState.lock.getD j 0) ∧
    locksEven (runOps 8 0 scenarioState
      [Op.fixSingleOp 0 3, Op.fillSingleOp 7 1, Op.lookUpOp k1hash]) :=
  ⟨C8_seqlock_discipline.1 8 0 protoState 0 5 (by norm_num) (by decide),
   C8_seqlock_discipline.2.1 8 0 protoState 1 5 (by norm_num) (by decide),
   C8_seqlock_discipline.2.2 8 0 scenarioState _
     (fun i => by simp [scenarioState])⟩

/-!  The XOR repair primitives. -/

/-- Truncating an XOR against a value already below the modulus equals
XORing in only the low bits. -/
theorem xor_mod_two_pow (x g w : Nat) (hg : g < 2 ^ w) :
    (x ^^^ g) % 2 ^ w = g ^^^ (x &&& (2 ^ w - 1)) := by
  apply Nat.eq_of_testBit_eq
  intro t
  simp only [Nat.testBit_mod_two_pow, Nat.testBit_xor, Nat.testBit_and,
    Nat.testBit_two_pow_sub_one]
  by_cases ht : t < w
  · simp [ht, Bool.xor_comm]
  · have hgt : g.testBit t = false :=
      Nat.testBit_lt_two_pow
        (lt_of_lt_of_le hg (Nat.pow_le_pow_right (by norm_num) (by omega)))
    simp [ht, hgt]

theorem fixSingle_mem (L CL : Nat) (s : State) (i x : Nat) (hL : ¬ L = 0) :
    (fixSingle L CL s i x).mem
      = fieldSet L s.mem (i * (L + CL) + CL)
          (x ^^^ fieldGet L s.mem (i * (L + CL) + CL)) := by
  simp only [fixSingle, memValueSet, memValueGet, if_neg hL]
  rfl

theorem fixSingle_id_of_L_zero (CL : Nat) (s : State) (i x : Nat) :
    fixSingle 0 CL s i x = s := by
  simp [fixSingle, memValueSet]

theorem fixSingle_shape (L CL : Nat) (s : State) (i x : Nat) :
    (fixSingle L CL s i x).ma = s.ma ∧ (fixSingle L CL s i x).mb = s.mb ∧
    (fixSingle L CL s i x).mem.length = s.mem.length := by
  by_cases hL : L = 0
  · subst hL
    rw [fixSingle_id_of_L_zero]
    exact ⟨rfl, rfl, rfl⟩
  · refine ⟨?_, ?_, ?_⟩ <;>
      simp [fixSingle, memValueSet, hL, bumpLock, fieldSet_length]

theorem fixSingle_memCovers (L CL : Nat) (s : State) (i x : Nat)
    (hcov : memCovers L CL s) : memCovers L CL (fixSingle L CL s i x) := by
  obtain ⟨e1, e2, e3⟩ := fixSingle_shape L CL s i x
  unfold memCovers at *
  rw [e1, e2, e3]
  exact hcov

/-- Value fields of two distinct slots occupy disjoint bit ranges. -/
theorem slot_value_disjoint (L CL i j : Nat) (hne : j ≠ i) :
    j * (L + CL) + CL + L ≤ i * (L + CL) + CL ∨
    i * (L + CL) + CL + L ≤ j * (L + CL) + CL := by
  rcases Nat.lt_or_ge j i with h | h
  · left
    have h2 := Nat.mul_le_mul_right (L + CL) (show j + 1 ≤ i from h)
    have e : j * (L + CL) + (L + CL) = (j + 1) * (L + CL) := by ring
    omega
  · right
    have hij : i < j := by omega
    have h2 := Nat.mul_le_mul_right (L + CL) (show i + 1 ≤ j from hij)
    have e : i * (L + CL) + (L + CL) = (i + 1) * (L + CL) := by ring
    omega

/-- The full slot of one index is disjoint from the value field of any
other index. -/
theorem slot_full_disjoint (L CL i j : Nat) (hne : j ≠ i) :
    j * (L + CL) + (L + CL) ≤ i * (L + CL) + CL ∨
    i * (L + CL) + CL + L ≤ j * (L + CL) := by
  rcases Nat.lt_or_ge j i with h | h
  · left
    have h2 := Nat.mul_le_mul_right (L + CL) (show j + 1 ≤ i from h)
    have e : j * (L + CL) + (L + CL) = (j + 1) * (L + CL) := by ring
    omega
  · right
    have hij : i < j := by omega
    have h2 := Nat.mul_le_mul_right (L + CL) (show i + 1 ≤ j from hij)
    have e : i * (L + CL) + (L + CL) = (i + 1) * (L + CL) := by ring
    omega

theorem fixSingle_memValueGet_self (L CL : Nat) (s : State) (i x : Nat)
    (hVCL : L + CL ≤ 64) (hidx : i < s.ma + s.mb) (hcov : memCovers L CL s) :
    memValueGet L CL (fixSingle L CL s i x) i
      = memValueGet L CL s i ^^^ (x &&& (2 ^ L - 1)) := by
  by_cases hL : L = 0
  · subst hL
    simp [memValueGet]
  · have hL0 : 0 < L := Nat.pos_of_ne_zero hL
    obtain ⟨h1, h2⟩ := slotPos_bounds L CL s i hVCL hL0 hidx hcov
    have hmem := fixSingle_mem L CL s i x hL
    simp only [memValueGet, if_neg hL, hmem]
    rw [fieldGet_fieldSet_self L s.mem _ _ (by omega) hL0 h1 h2]
    exact xor_mod_two_pow x _ L (fieldGet_lt L s.mem _ (by omega))

theorem fixSingle_memValueGet_ne (L CL : Nat) (s : State) (i x j : Nat)
    (hVCL : L + CL ≤ 64) (hidx : i < s.ma + s.mb) (hcov : memCovers L CL s)
    (hne : j ≠ i) :
    memValueGet L CL (fixSingle L CL s i x) j = memValueGet L CL s j := by
  by_cases hL : L = 0
  · subst hL
    rw [fixSingle_id_of_L_zero]
  · have hL0 : 0 < L := Nat.pos_of_ne_zero hL
    obtain ⟨h1, h2⟩ := slotPos_bounds L CL s i hVCL hL0 hidx hcov
    have hmem := fixSingle_mem L CL s i x hL
    simp only [memValueGet, if_neg hL, hmem]
    exact fieldGet_fieldSet_disjoint L L s.mem _ _ _ (by omega) (by omega) hL0 h1 h2
      (slot_value_disjoint L CL i j hne)

theorem fixSingle_memGet_ne (L CL : Nat) (s : State) (i x j : Nat)
    (hVCL : L + CL ≤ 64) (hidx : i < s.ma + s.mb) (hcov : memCovers L CL s)
    (hne : j ≠ i) :
    memGet L CL (fixSingle L CL s i x) j = memGet L CL s j := by
  by_cases hL : L = 0
  · subst hL
    rw [fixSingle_id_of_L_zero]
  · have hL0 : 0 < L := Nat.pos_of_ne_zero hL
    obtain ⟨h1, h2⟩ := slotPos_bounds L CL s i hVCL hL0 hidx hcov
    have hmem := fixSingle_mem L CL s i x hL
    simp only [memGet, hmem]
    exact fieldGet_fieldSet_disjoint (L + CL) L s.mem _ _ _ hVCL (by omega) hL0 h1 h2
      (slot_full_disjoint L CL i j hne)

/-- C6: applying fixHalfTreeByConnectedComponent to pairwise-distinct
in-bounds slots XORs the low L bits of the delta into every listed slot's
value field and leaves every other slot — value field and full slot
content alike — unchanged. -/
theorem C6_fixHalfTree_component (L CL : Nat) (s : State) (indices : List Nat)
    (d : Nat) (hVCL : L + CL ≤ 64) (hnodup : indices.Nodup)
    (hbound : ∀ i ∈ indices, i < s.ma + s.mb) (hcov : memCovers L CL s) :
    (∀ i ∈ indices,
      memValueGet L CL (fixHalfTreeByConnectedComponent L CL s indices d) i
        = memValueGet L CL s i ^^^ (d &&& (2 ^ L - 1))) ∧
    (∀ j, j ∉ indices →
      memValueGet L CL (fixHalfTreeByConnectedComponent L CL s indices d) j
        = memValueGet L CL s j ∧
      memGet L CL (fixHalfTreeByConnectedComponent L CL s indices d) j
        = memGet L CL s j) := by
  induction indices generalizing s with
  | nil =>
      constructor
      · intro i hi
        cases hi
      · intro j hj
        exact ⟨rfl, rfl⟩
  | cons i rest ih =>
      obtain ⟨hirest, hrestnodup⟩ := List.nodup_cons.mp hnodup
      have hidx : i < s.ma + s.mb := hbound i (List.mem_cons_self i rest)
      have hshape := fixSingle_shape L CL s i d
      have hcov' := fixSingle_memCovers L CL s i d hcov
      have hbound' : ∀ m ∈ rest,
          m < (fixSingle L CL s i d).ma + (fixSingle L CL s i d).mb := by
        intro m hm
        rw [hshape.1, hshape.2.1]
        exact hbound m (List.mem_cons_of_mem _ hm)
      obtain ⟨IH1, IH2⟩ := ih (fixSingle L CL s i d) hrestnodup hbound' hcov'
      simp only [fixHalfTreeByConnectedComponent, List.foldl_cons] at IH1 IH2 ⊢
      constructor
      · intro m hm
        rcases List.mem_cons.mp hm with rfl | hm'
        · rw [(IH2 m hirest).1,
            fixSingle_memValueGet_self L CL s m d hVCL hidx hcov]
        · have hmne : m ≠ i := fun hc => hirest (hc ▸ hm')
          rw [IH1 m hm',
            fixSingle_memValueGet_ne L CL s i d m hVCL hidx hcov hmne]
      · intro j hj
        have hji : j ≠ i := fun hc => hj (hc ▸ List.mem_cons_self i rest)
        have hjrest : j ∉ rest := fun hc => hj (List.mem_cons_of_mem _ hc)
        exact ⟨by rw [(IH2 j hjrest).1,
                 fixSingle_memValueGet_ne L CL s i d j hVCL hidx hcov hji],
               by rw [(IH2 j hjrest).2,
                 fixSingle_memGet_ne L CL s i d j hVCL hidx hcov hji]⟩

/-- C6 witness: component {2, 5, 7} with delta 0b1011 on the nibble
table. -/
theorem C6_witness :
    (4 + 0 ≤ 64 ∧ List.Nodup [2, 5, 7] ∧
      (∀ i ∈ [2, 5, 7], i < nibbleState.ma + nibbleState.mb) ∧
      memCovers 4 0 nibbleState) ∧
    (∀ i ∈ [2, 5, 7],
      memValueGet 4 0 (fixHalfTreeByConnectedComponent 4 0 nibbleState [2, 5, 7] 11) i
        = memValueGet 4 0 nibbleState i ^^^ (11 &&& (2 ^ 4 - 1))) ∧
    (∀ j, j ∉ [2, 5, 7] →
      memValueGet 4 0 (fixHalfTreeByConnectedComponent 4 0 nibbleState [2, 5, 7] 11) j
        = memValueGet 4 0 nibbleState j ∧
      memGet 4 0 (fixHalfTreeByConnectedComponent 4 0 nibbleState [2, 5, 7] 11) j
        = memGet 4 0 nibbleState j) :=
  ⟨⟨by norm_num, by decide, by decide, by decide⟩,
   (C6_fixHalfTree_component 4 0 nibbleState [2, 5, 7] 11 (by norm_num) (by decide)
     (by decide) (by decide)).1,
   (C6_fixHalfTree_component 4 0 nibbleState [2, 5, 7] 11 (by norm_num) (by decide)
     (by decide) (by decide)).2⟩

theorem word_lt_of_entries (mem : List Nat) (h : ∀ w ∈ mem, w < W64) (j : Nat) :
    word mem j < W64 := by
  by_cases hj : j < mem.length
  · have e : mem.getD j 0 = mem[j] := by
      rw [List.getD_eq_getElem?_getD, List.getElem?_eq_getElem hj]
      rfl
    rw [word, e]
    exact h _ (List.getElem_mem hj)
  · rw [word, List.getD_eq_getElem?_getD, List.getElem?_eq_none (by omega)]
    simp [W64]

/-- Every word of the memory after a field write is still a 64-bit word,
provided the words before it were. -/
theorem fieldSet_entries_lt (width : Nat) (mem : List Nat) (pos v : Nat)
    (hw : width ≤ 64) (hmem : ∀ w ∈ mem, w < W64) :
    ∀ u ∈ fieldSet width mem pos v, u < W64 := by
  have hW : (0 : Nat) < W64 := by norm_num [W64]
  have hv1 : v &&& (2 ^ width - 1) < 2 ^ width :=
    Nat.and_lt_two_pow v (Nat.sub_lt (pow_pos (by norm_num) width) (by norm_num))
  have hpowle : (2 : Nat) ^ width ≤ 2 ^ 64 := Nat.pow_le_pow_right (by norm_num) hw
  have hv' : v &&& (2 ^ width - 1) < W64 :=
    lt_of_lt_of_le hv1 (by simpa [W64] using hpowle)
  intro u hu
  have hfirst : (word mem (pos / 64) &&&
        ((W64 - 1) ^^^ (((2 ^ width - 1) <<< (pos % 64)) % W64))) |||
      (((v &&& (2 ^ width - 1)) <<< (pos % 64)) % W64) < W64 := by
    show _ < 2 ^ 64
    apply Nat.or_lt_two_pow
    · exact Nat.and_lt_two_pow _ (show _ < 2 ^ 64 from
        Nat.xor_lt_two_pow (by norm_num [W64]) (by
          have := Nat.mod_lt ((2 ^ width - 1) <<< (pos % 64)) hW
          simpa [W64] using this))
    · have := Nat.mod_lt ((v &&& (2 ^ width - 1)) <<< (pos % 64)) hW
      simpa [W64] using this
  have hsecond : ∀ a : Nat,
      (a &&& (((W64 - 1) <<< (pos % 64 + width - 64)) % W64)) |||
        ((v &&& (2 ^ width - 1)) >>> (width - (pos % 64 + width - 64))) < W64 := by
    intro a
    show _ < 2 ^ 64
    apply Nat.or_lt_two_pow
    · exact Nat.and_lt_two_pow _ (show _ < 2 ^ 64 from by
        have := Nat.mod_lt ((W64 - 1) <<< (pos % 64 + width - 64)) hW
        simpa [W64] using this)
    · rw [Nat.shiftRight_eq_div_pow]
      calc (v &&& (2 ^ width - 1)) / 2 ^ (width - (pos % 64 + width - 64))
            ≤ v &&& (2 ^ width - 1) := Nat.div_le_self _ _
        _ < 2 ^ 64 := by simpa [W64] using hv'
  simp only [fieldSet] at hu
  by_cases hstr : 0 < pos % 64 + width - 64
  · rw [if_pos hstr] at hu
    rcases List.mem_or_eq_of_mem_set hu with hu1 | rfl
    · rcases List.mem_or_eq_of_mem_set hu1 with hu2 | rfl
      · exact hmem u hu2
      · exact hfirst
    · exact hsecond _
  · rw [if_neg hstr] at hu
    rcases List.mem_or_eq_of_mem_set hu with hu1 | rfl
    · exact hmem u hu1
    · exact hfirst

/-- C10: two successive fixSingle calls with the same delta restore the
slot's value field and leave the packed memory bit-for-bit as it was. -/
theorem C10_fixSingle_involution (L CL : Nat) (s : State) (index x : Nat)
    (hVCL : L + CL ≤ 64) (hidx : index < s.ma + s.mb) (hcov : memCovers L CL s)
    (hwords : ∀ w ∈ s.mem, w < W64) :
    memValueGet L CL (fixSingle L CL (fixSingle L CL s index x) index x) index
      = memValueGet L CL s index ∧
    (fixSingle L CL (fixSingle L CL s index x) index x).mem = s.mem := by
  by_cases hL : L = 0
  · subst hL
    rw [fixSingle_id_of_L_zero, fixSingle_id_of_L_zero]
    exact ⟨rfl, rfl⟩
  · have hL0 : 0 < L := Nat.pos_of_ne_zero hL
    obtain ⟨hb1, hb2⟩ := slotPos_bounds L CL s index hVCL hL0 hidx hcov
    have hmem1 := fixSingle_mem L CL s index x hL
    have hmem2 := fixSingle_mem L CL (fixSingle L CL s index x) index x hL
    rw [hmem1] at hmem2
    have hb1' : (index * (L + CL) + CL) / 64
        < (fieldSet L s.mem (index * (L + CL) + CL)
            (x ^^^ fieldGet L s.mem (index * (L + CL) + CL))).length := by
      rw [fieldSet_length]
      exact hb1
    have hb2' : 64 < (index * (L + CL) + CL) % 64 + L →
        (index * (L + CL) + CL) / 64 + 1
          < (fieldSet L s.mem (index * (L + CL) + CL)
              (x ^^^ fieldGet L s.mem (index * (L + CL) + CL))).length := by
      intro h
      rw [fieldSet_length]
      exact hb2 h
    have hbit : ∀ b, memBit (fixSingle L CL (fixSingle L CL s index x) index x).mem b
        = memBit s.mem b := by
      intro b
      rw [hmem2,
        fieldGet_fieldSet_self L s.mem _ _ (by omega) hL0 hb1 hb2,
        fieldSet_memBit L _ _ _ (by omega) hL0 hb1' hb2',
        fieldSet_memBit L s.mem _ _ (by omega) hL0 hb1 hb2]
      by_cases hin : index * (L + CL) + CL ≤ b ∧ b < index * (L + CL) + CL + L
      · rw [if_pos hin]
        have hbp : b - (index * (L + CL) + CL) < L := by omega
        have hpb : index * (L + CL) + CL + (b - (index * (L + CL) + CL)) = b := by
          omega
        simp only [Nat.testBit_xor, Nat.testBit_mod_two_pow,
          fieldGet_testBit L s.mem (index * (L + CL) + CL) (by omega), hpb]
        simp [hbp, ← Bool.xor_assoc]
      · rw [if_neg hin, if_neg hin]
    have hlen : (fixSingle L CL (fixSingle L CL s index x) index x).mem.length
        = s.mem.length := by
      rw [hmem2, fieldSet_length, fieldSet_length]
    have hents : ∀ u ∈ (fixSingle L CL (fixSingle L CL s index x) index x).mem,
        u < W64 := by
      rw [hmem2]
      exact fieldSet_entries_lt L _ _ _ (by omega)
        (fieldSet_entries_lt L s.mem _ _ (by omega) hwords)
    have hmemEq : (fixSingle L CL (fixSingle L CL s index x) index x).mem
        = s.mem := by
      apply List.ext_getElem hlen
      intro n h1n h2n
      apply Nat.eq_of_testBit_eq
      intro t
      by_cases ht : t < 64
      · have hb := hbit (64 * n + t)
        have e1 : (64 * n + t) / 64 = n := by omega
        have e2 : (64 * n + t) % 64 = t := by omega
        simp only [memBit, word, e1, e2, List.getD_eq_getElem?_getD] at hb
        rw [List.getElem?_eq_getElem h1n, List.getElem?_eq_getElem h2n] at hb
        simpa using hb
      · have hA := hents _ (List.getElem_mem h1n)
        have hB := hwords _ (List.getElem_mem h2n)
        have hle : W64 ≤ 2 ^ t :=
          le_trans (le_of_eq rfl) (Nat.pow_le_pow_right (by norm_num) (by omega))
        rw [Nat.testBit_lt_two_pow (lt_of_lt_of_le hA hle),
          Nat.testBit_lt_two_pow (lt_of_lt_of_le hB hle)]
    refine ⟨?_, hmemEq⟩
    simp only [memValueGet, if_neg hL]
    rw [hmemEq]

/-- C10 witness: the double fix on slot 5 of the nibble table. -/
theorem C10_witness :
    (4 + 0 ≤ 64 ∧ 5 < nibbleState.ma + nibbleState.mb ∧
      memCovers 4 0 nibbleState ∧ ∀ w ∈ nibbleState.mem, w < W64) ∧
    memValueGet 4 0 (fixSingle 4 0 (fixSingle 4 0 nibbleState 5 9) 5 9) 5
      = memValueGet 4 0 nibbleState 5 ∧
    (fixSingle 4 0 (fixSingle 4 0 nibbleState 5 9) 5 9).mem = nibbleState.mem :=
  ⟨⟨by norm_num, by decide, by decide, by decide⟩,
   C10_fixSingle_involution 4 0 nibbleState 5 9 (by norm_num) (by decide)
     (by decide) (by decide)⟩

end Othello
